import Mathlib

/-!
Verification development for the pixbincodec repository (PixBlockEncoder,
PixBlockDecoder, PixBinEncoder, PixBinDecoder).

Bytes are modelled as natural numbers and buffers as lists of bytes.  The
external collaborators (the codecutils value codec, the pako compression
primitive and the js-md5 checksum primitive) are out of scope for the
repository and are modelled from their interface contracts; every such
definition carries a doc comment starting with the words Modelled from the
spec.  All repository functions are translated from the JavaScript source.
-/

namespace PixBin

/-- Little-endian 4-byte encoding of a 32-bit unsigned integer, as written by
a Uint32Array on a little-endian platform. -/
def u32le (n : Nat) : List Nat :=
  [n % 256, n / 256 % 256, n / 65536 % 256, n / 16777216 % 256]

/-- Big-endian 4-byte encoding of a 32-bit unsigned integer. -/
def u32be (n : Nat) : List Nat :=
  [n / 16777216 % 256, n / 65536 % 256, n / 256 % 256, n % 256]

/-- Little-endian 32-bit read at a byte offset, as DataView.getUint32 with the
littleEndian argument set. -/
def readU32LE (bs : List Nat) (off : Nat) : Nat :=
  bs.getD off 0 + 256 * bs.getD (off + 1) 0 + 65536 * bs.getD (off + 2) 0 +
    16777216 * bs.getD (off + 3) 0

/-- Big-endian 32-bit read at a byte offset, as DataView.getUint32 with the
littleEndian argument unset. -/
def readU32BE (bs : List Nat) (off : Nat) : Nat :=
  16777216 * bs.getD off 0 + 65536 * bs.getD (off + 1) 0 +
    256 * bs.getD (off + 2) 0 + bs.getD (off + 3) 0

/-- DataView.getUint32 with an explicit littleEndian boolean. -/
def readU32 (bs : List Nat) (off : Nat) (little : Bool) : Nat :=
  if little then readU32LE bs off else readU32BE bs off

/-- ArrayBuffer.slice: both bounds are clamped to the buffer length. -/
def sliceBytes (bs : List Nat) (start stop : Nat) : List Nat :=
  (bs.take stop).drop start

/-- Construction of a typed-array view of a given byte length at a byte
offset; the constructor throws a RangeError when the view would run past the
end of the buffer, modelled by none. -/
def extractExact (bs : List Nat) (off len : Nat) : Option (List Nat) :=
  if off + len ≤ bs.length then some ((bs.drop off).take len) else none

/-- JavaScript truthiness of a possibly-absent number: undefined and null and
0 are falsy, every other number is truthy. -/
def jsTruthy : Option Nat → Bool
  | none => false
  | some n => n != 0

/-- JSON-serializable JavaScript value tree (the domain of the external value
codec): numbers, strings, booleans, null, arrays and plain objects.  Being an
inductive tree it is acyclic by construction, which matches the encoder
contract that metadata must not contain reference cycles. -/
inductive JSVal where
  | jnum (n : Int)
  | jstr (s : String)
  | jbool (b : Bool)
  | jnull
  | jarr (xs : List JSVal)
  | jobj (fields : List (String × JSVal))

/-- 4-byte little-endian length field used by the modelled value codec. -/
def enc4 (n : Nat) : List Nat := u32le n

/-- Reads back a 4-byte length field of the modelled value codec. -/
def dec4 : List Nat → Option (Nat × List Nat)
  | a :: b :: c :: d :: rest =>
      some (a + 256 * b + 65536 * c + 16777216 * d, rest)
  | _ => none

/-- Three-byte encoding of a character code point (code points are below
2 to the 24). -/
def encChar (c : Char) : List Nat :=
  [c.toNat % 256, c.toNat / 256 % 256, c.toNat / 65536]

/-- Reads back one encoded character. -/
def decChar : List Nat → Option (Char × List Nat)
  | a :: b :: c :: rest => some (Char.ofNat (a + 256 * b + 65536 * c), rest)
  | _ => none

/-- Reads back a run of encoded characters of known count. -/
def decChars : Nat → List Nat → Option (List Char × List Nat)
  | 0, bs => some ([], bs)
  | n + 1, bs => do
      let (c, r) ← decChar bs
      let (cs, r2) ← decChars n r
      pure (c :: cs, r2)

/-- Length-prefixed string encoding of the modelled value codec. -/
def encString (s : String) : List Nat :=
  enc4 s.length ++ (s.toList.map encChar).flatten

/-- Reads back a length-prefixed string. -/
def decString (bs : List Nat) : Option (String × List Nat) := do
  let (n, r) ← dec4 bs
  let (cs, r2) ← decChars n r
  pure (String.mk cs, r2)

/-- Sign-and-magnitude integer encoding of the modelled value codec. -/
def encInt (i : Int) : List Nat :=
  (if i < 0 then 1 else 0) :: enc4 i.natAbs

/-- Reads back a sign-and-magnitude integer. -/
def decInt : List Nat → Option (Int × List Nat)
  | s :: rest => do
      let (m, r) ← dec4 rest
      pure (if s = 1 then -(Int.ofNat m) else Int.ofNat m, r)
  | _ => none

mutual

/-- Modelled from the spec: serialize half of the external value codec
(CodecUtils.objectToArrayBuffer), a pure function turning an acyclic
structured value into a byte buffer, lossless together with its
deserializer.  The concrete byte format of the collaborator is out of scope,
so a simple injective tagged encoding is used. -/
def serializeVal : JSVal → List Nat
  | .jnum n => 0 :: encInt n
  | .jstr s => 1 :: encString s
  | .jbool b => 2 :: [if b then 1 else 0]
  | .jnull => [3]
  | .jarr xs => 4 :: (enc4 xs.length ++ serializeValList xs)
  | .jobj fields => 5 :: (enc4 fields.length ++ serializeValFields fields)

/-- Serialization of the element run of an array value. -/
def serializeValList : List JSVal → List Nat
  | [] => []
  | v :: rest => serializeVal v ++ serializeValList rest

/-- Serialization of the field run of an object value. -/
def serializeValFields : List (String × JSVal) → List Nat
  | [] => []
  | (k, v) :: rest => encString k ++ serializeVal v ++ serializeValFields rest

end

mutual

/-- Fueled parser for the modelled value codec. -/
def decVal : Nat → List Nat → Option (JSVal × List Nat)
  | 0, _ => none
  | Nat.succ fuel, bs =>
      match bs with
      | 0 :: r => (decInt r).map (fun p => (.jnum p.1, p.2))
      | 1 :: r => (decString r).map (fun p => (.jstr p.1, p.2))
      | 2 :: v :: r => some (.jbool (v = 1), r)
      | 3 :: r => some (.jnull, r)
      | 4 :: r => do
          let (n, r1) ← dec4 r
          let (xs, r2) ← decValList fuel n r1
          pure (.jarr xs, r2)
      | 5 :: r => do
          let (n, r1) ← dec4 r
          let (fs, r2) ← decValFields fuel n r1
          pure (.jobj fs, r2)
      | _ => none

/-- Fueled parser for a counted run of array elements. -/
def decValList : Nat → Nat → List Nat → Option (List JSVal × List Nat)
  | 0, _, _ => none
  | Nat.succ _, 0, bs => some ([], bs)
  | Nat.succ fuel, Nat.succ n, bs => do
      let (v, r) ← decVal fuel bs
      let (vs, r2) ← decValList fuel n r
      pure (v :: vs, r2)

/-- Fueled parser for a counted run of object fields. -/
def decValFields : Nat → Nat → List Nat → Option (List (String × JSVal) × List Nat)
  | 0, _, _ => none
  | Nat.succ _, 0, bs => some ([], bs)
  | Nat.succ fuel, Nat.succ n, bs => do
      let (k, r) ← decString bs
      let (v, r1) ← decVal fuel r
      let (fs, r2) ← decValFields fuel n r1
      pure ((k, v) :: fs, r2)

end

/-- Modelled from the spec: deserialize half of the external value codec
(CodecUtils.ArrayBufferToObject); it consumes the whole buffer and errors
(none) on malformed input, matching JSON.parse raising on garbage. -/
def deserializeVal (bs : List Nat) : Option JSVal :=
  match decVal (2 * bs.length + 2) bs with
  | some (v, []) => some v
  | _ => none

/-- The kinds of JavaScript typed array handled by the codec (the kinds that
CodecUtils.getTypedArrayInfo describes). -/
inductive TAKind where
  | int8 | uint8 | int16 | uint16 | int32 | uint32 | float32 | float64
deriving DecidableEq

/-- BYTES_PER_ELEMENT of each typed-array kind. -/
def bytesPerElementOf : TAKind → Nat
  | .int8 => 1
  | .uint8 => 1
  | .int16 => 2
  | .uint16 => 2
  | .int32 => 4
  | .uint32 => 4
  | .float32 => 4
  | .float64 => 8

/-- The type tag codecutils stores for a typed-array kind: int for the
integer kinds and float for the floating kinds. -/
def taTypeString : TAKind → String
  | .float32 => "float"
  | .float64 => "float"
  | _ => "int"

/-- Modelled from the spec: the signed flag codecutils stores for a
typed-array kind.  The collaborator sets the flag for the Uint kinds and
clears it for the Int kinds; the block decoder reconstructs a Uint
constructor from a set flag, so the pair is lossless on element kinds. -/
def taSignedFlag : TAKind → Bool
  | .uint8 => true
  | .uint16 => true
  | .uint32 => true
  | _ => false

/-- A typed array, modelled as its kind together with its underlying raw
bytes (the data claims are bit-for-bit, so numeric interpretation of the
bytes is never needed). -/
structure TypedArr where
  kind : TAKind
  bytes : List Nat
deriving DecidableEq

/-- Per-stream reconstruction record written into the block header
(byteStreamInfoSubset in the source).  Fields that a code path leaves
undefined are modelled by none; isTypedArray is a plain boolean because the
decoder only tests its truthiness, under which an absent field and false
coincide. -/
structure StreamInfo where
  type : String
  signed : Option Bool := none
  bytesPerElements : Option Nat := none
  byteLength : Option Nat := none
  length : Option Nat := none
  compressedByteLength : Option Nat := none
  isTypedArray : Bool := false
deriving DecidableEq

/-- Modelled from the spec: CodecUtils.getTypedArrayInfo, the collaborator
that describes a typed array as a record with type, signed, bytesPerElements,
byteLength and length fields. -/
def getTypedArrayInfo (t : TypedArr) : StreamInfo :=
  { type := taTypeString t.kind
    signed := some (taSignedFlag t.kind)
    bytesPerElements := some (bytesPerElementOf t.kind)
    byteLength := some t.bytes.length
    length := some (t.bytes.length / bytesPerElementOf t.kind) }

/-- The block header object assembled by the encoder (pixBlockHeader in the
source): the stream records, the constructor name of the input container and
the byte length of the serialized metadata that follows the header. -/
structure PixBlockHeader where
  byteStreamInfo : List StreamInfo
  originalBlockType : String
  metadataByteLength : Nat
deriving DecidableEq

/-- Option-of-number field encoding of the modelled value codec. -/
def encOptNat : Option Nat → List Nat
  | none => [0]
  | some n => 1 :: enc4 n

/-- Reads back an optional number field. -/
def decOptNat : List Nat → Option (Option Nat × List Nat)
  | 0 :: rest => some (none, rest)
  | 1 :: rest => (dec4 rest).map (fun p => (some p.1, p.2))
  | _ => none

/-- Option-of-boolean field encoding of the modelled value codec. -/
def encOptBool : Option Bool → List Nat
  | none => [0]
  | some b => [1, if b then 1 else 0]

/-- Reads back an optional boolean field. -/
def decOptBool : List Nat → Option (Option Bool × List Nat)
  | 0 :: rest => some (none, rest)
  | 1 :: v :: rest => some (some (v = 1), rest)
  | _ => none

/-- Serialization of one stream record inside the block header. -/
def encStreamInfo (si : StreamInfo) : List Nat :=
  encString si.type ++ encOptBool si.signed ++ encOptNat si.bytesPerElements ++
    encOptNat si.byteLength ++ encOptNat si.length ++
    encOptNat si.compressedByteLength ++ [if si.isTypedArray then 1 else 0]

/-- Reads back one stream record. -/
def decStreamInfo (bs : List Nat) : Option (StreamInfo × List Nat) := do
  let (t, r1) ← decString bs
  let (sg, r2) ← decOptBool r1
  let (bpe, r3) ← decOptNat r2
  let (bl, r4) ← decOptNat r3
  let (ln, r5) ← decOptNat r4
  let (cbl, r6) ← decOptNat r5
  match r6 with
  | ita :: r7 => pure (⟨t, sg, bpe, bl, ln, cbl, ita = 1⟩, r7)
  | [] => none

/-- Reads back a counted run of stream records. -/
def decStreamInfos : Nat → List Nat → Option (List StreamInfo × List Nat)
  | 0, bs => some ([], bs)
  | n + 1, bs => do
      let (si, r) ← decStreamInfo bs
      let (sis, r2) ← decStreamInfos n r
      pure (si :: sis, r2)

/-- Modelled from the spec: the external value codec applied to the block
header object (CodecUtils.objectToArrayBuffer on pixBlockHeader), lossless on
header records. -/
def serializeHeader (h : PixBlockHeader) : List Nat :=
  enc4 h.byteStreamInfo.length ++ (h.byteStreamInfo.map encStreamInfo).flatten ++
    encString h.originalBlockType ++ enc4 h.metadataByteLength

/-- Modelled from the spec: the external value codec reading back a block
header object (CodecUtils.ArrayBufferToObject on the header slice); it
consumes the whole slice and errors on malformed bytes. -/
def deserializeHeader (bs : List Nat) : Option PixBlockHeader := do
  let (n, r) ← dec4 bs
  let (infos, r1) ← decStreamInfos n r
  let (t, r2) ← decString r1
  let (m, r3) ← dec4 r2
  if r3 = [] then pure ⟨infos, t, m⟩ else none

/-- Modelled from the spec: the compression primitive (pako.deflate), a pure
byte-to-byte function; modelled as a header byte followed by the input so
that the inverse below recovers the input exactly. -/
def deflate (bs : List Nat) : List Nat := 120 :: bs

/-- Modelled from the spec: the decompression primitive (pako.inflate),
inverse of deflate on its range; it throws on input that is not a deflate
stream, modelled by none. -/
def inflate : List Nat → Option (List Nat)
  | 120 :: rest => some rest
  | _ => none

/-- Modelled from the spec: the checksum primitive (js-md5), a digest of a
byte buffer used only for equality comparison; modelled as an injective
digest so that digests collide exactly when the bytes coincide. -/
def md5 (bs : List Nat) : List Nat := bs

/-- One element of an Array-valued _data: either a typed array or any other
JavaScript value (which the encoder serializes through the value codec). -/
inductive MixedElem where
  | typed (t : TypedArr)
  | plain (v : JSVal)

/-- The shape of a _data value, mirroring the instanceof tests of
PixBlockEncoder.determineDataCase: a typed array, an Array (of anything), a
non-Array object, or a primitive (not an Object instance). -/
inductive PixData where
  | typedArr (t : TypedArr)
  | mixedArr (elems : List MixedElem)
  | complexObj (v : JSVal)
  | scalar (v : JSVal)

/-- An input container: a constructor name (input.constructor.name in the
source), a _data value and a _metadata value. -/
structure Container where
  ctorName : String
  _data : PixData
  _metadata : JSVal

/-- PixBlockEncoder.determineDataCase: typed arrays are case 1, Arrays are
case 2, other Object instances are case 3, primitives are invalid (none). -/
def determineDataCase : PixData → Option Nat
  | .typedArr _ => some 1
  | .mixedArr _ => some 2
  | .complexObj _ => some 3
  | .scalar _ => none

/-- PixBlockEncoder.isGoodCandidate: the container always carries _data and
_metadata here, and an inductive metadata tree is acyclic, so the candidate
test reduces to the data case not being invalid. -/
def isGoodCandidate (c : Container) : Bool :=
  (determineDataCase c._data).isSome

/-- The JavaScript constructor name of a non-typed value, as read by
subset.constructor.name.  Reading the constructor of null would actually
throw in JavaScript; it is mapped to Object here, a corner no claim
exercises. -/
def ctorNameOfVal : JSVal → String
  | .jnum _ => "Number"
  | .jstr _ => "String"
  | .jbool _ => "Boolean"
  | .jnull => "Object"
  | .jarr _ => "Array"
  | .jobj _ => "Object"

/-- PixBlockEncoder private helper getDataSubsetInfo: typed arrays get the
codecutils record plus an isTypedArray mark; anything else gets a stub
record whose byteLength stays undefined and whose length is filled in later
by the caller. -/
def getDataSubsetInfo : MixedElem → StreamInfo
  | .typed t => { getTypedArrayInfo t with isTypedArray := true }
  | .plain v =>
      { type := ctorNameOfVal v
        compressedByteLength := none
        length := none
        isTypedArray := false }

/-- The stream record the mixedArrays loop of PixBlockEncoder.run builds for
one element: non-typed elements are serialized and their length recorded;
with compression on, the compressed byte length is recorded as well. -/
def mixedInfo (compress : Bool) (e : MixedElem) : StreamInfo :=
  match e with
  | .typed t =>
      let i0 := getDataSubsetInfo (.typed t)
      if compress then
        { i0 with compressedByteLength := some (deflate t.bytes).length }
      else i0
  | .plain v =>
      let ser := serializeVal v
      let i0 := { getDataSubsetInfo (.plain v) with length := some ser.length }
      if compress then
        { i0 with compressedByteLength := some (deflate ser).length }
      else i0

/-- The payload buffer the tail of PixBlockEncoder.run pushes for one element
of a mixedArrays input.  With compression on it pushes the per-element
deflated buffers collected in the loop; with compression off it pushes
data[i].buffer where data[i] is the ORIGINAL element, so for a non-typed
element the pushed buffer is undefined (none): the serialized bytes computed
in the loop were bound to a local variable only. -/
def mixedChunk (compress : Bool) (e : MixedElem) : Option (List Nat) :=
  if compress then
    match e with
    | .typed t => some (deflate t.bytes)
    | .plain v => some (deflate (serializeVal v))
  else
    match e with
    | .typed t => some t.bytes
    | .plain _ => none

/-- CodecUtils.mergeBuffers: concatenates the buffers; reading byteLength of
an undefined buffer throws, modelled by none. -/
def mergeBuffers : List (Option (List Nat)) → Option (List Nat)
  | [] => some []
  | none :: _ => none
  | some b :: rest => (mergeBuffers rest).map (fun acc => b ++ acc)

/-- The platform of the model is little endian, so the endianness byte
written by the encoders is 1 (CodecUtils.isPlatformLittleEndian). -/
def isPlatformLittleEndian : Bool := true

/-- Outcome of PixBlockEncoder.run: an output buffer, an early return that
leaves no output, or a thrown exception. -/
inductive EncResult where
  | ok (bytes : List Nat)
  | noOutput
  | crash
deriving DecidableEq

/-- Adapter exposing the bytes of a successful encode. -/
def encOk : EncResult → Option (List Nat)
  | .ok b => some b
  | _ => none

/-- PixBlockEncoder.run.  Builds the per-stream records and payload chunks
by data case, serializes the metadata uncompressed, assembles the header,
and merges primer, header, metadata and payload chunks into one buffer. -/
def pixBlockEncoderRun (input : Container) (compress : Bool) : EncResult :=
  match determineDataCase input._data with
  | none => .noOutput
  | some _ =>
      let parts : List StreamInfo × List (Option (List Nat)) :=
        match input._data with
        | .typedArr t =>
            let info0 :=
              { getDataSubsetInfo (.typed t) with compressedByteLength := none }
            if compress then
              let comp := deflate t.bytes
              ([{ info0 with compressedByteLength := some comp.length }],
               [some comp])
            else ([info0], [some t.bytes])
        | .mixedArr elems =>
            (elems.map (mixedInfo compress), elems.map (mixedChunk compress))
        | .complexObj v =>
            let ser := serializeVal v
            let info0 :=
              { getDataSubsetInfo (.plain v) with length := some ser.length }
            if compress then
              let comp := deflate ser
              ([{ info0 with compressedByteLength := some comp.length }],
               [some comp])
            else ([info0], [some ser])
        | .scalar _ => ([], [])
      let metadataBuffer := serializeVal input._metadata
      let header : PixBlockHeader :=
        { byteStreamInfo := parts.1
          originalBlockType := input.ctorName
          metadataByteLength := metadataBuffer.length }
      let headerBuff := serializeHeader header
      let allBuffers : List (Option (List Nat)) :=
        [some [if isPlatformLittleEndian then 1 else 0],
         some (u32le headerBuff.length),
         some headerBuff,
         some metadataBuffer] ++ parts.2
      match mergeBuffers allBuffers with
      | some out => .ok out
      | none => .crash

/-- A constructor value looked up on the global object by the block decoder:
either a typed-array constructor or Object. -/
inductive StreamCtor where
  | ta (k : TAKind)
  | obj
deriving DecidableEq

/-- Lookup of a constructor name on the JavaScript global object
(CodecUtils.getGlobalObject): the eight typed-array constructors and Object
exist, every other name the decoder can build is undefined (none). -/
def globalCtorOfName : String → Option StreamCtor
  | "Int8Array" => some (.ta .int8)
  | "Uint8Array" => some (.ta .uint8)
  | "Int16Array" => some (.ta .int16)
  | "Uint16Array" => some (.ta .uint16)
  | "Int32Array" => some (.ta .int32)
  | "Uint32Array" => some (.ta .uint32)
  | "Float32Array" => some (.ta .float32)
  | "Float64Array" => some (.ta .float64)
  | "Object" => some .obj
  | _ => none

/-- PixBlockDecoder private helper getDataTypeFromByteStreamInfo: the name
defaults to Object; an int record builds Uint or Int from the signed flag
(an absent flag is falsy) plus bytesPerElements times 8; a float record
builds Float plus bytesPerElements times 8; the assembled name is looked up
on the global object.  An absent bytesPerElements would make the name
contain NaN, which is undefined on the global object. -/
def getDataTypeFromByteStreamInfo (bsi : StreamInfo) : Option StreamCtor :=
  if bsi.type = "int" then
    match bsi.bytesPerElements with
    | some b =>
        globalCtorOfName
          ((if bsi.signed.getD false then "Uint" else "Int") ++
            toString (b * 8) ++ "Array")
    | none => none
  else if bsi.type = "float" then
    match bsi.bytesPerElements with
    | some b => globalCtorOfName ("Float" ++ toString (b * 8) ++ "Array")
    | none => none
  else globalCtorOfName "Object"

/-- One decoded payload stream: a typed array or a deserialized object. -/
inductive DecodedValue where
  | typed (t : TypedArr)
  | objv (v : JSVal)

/-- The _data of a decoded block: the single stream unwrapped when exactly
one stream resulted, otherwise the array of streams. -/
inductive BlockData where
  | one (v : DecodedValue)
  | many (vs : List DecodedValue)

/-- The output object of PixBlockDecoder.run. -/
structure DecodedBlock where
  originalBlockType : String
  _data : BlockData
  _metadata : JSVal

/-- Option-valued offset addition: the reading offset becomes NaN (none)
when advanced by an absent byteLength field. -/
def addOpt : Option Nat → Option Nat → Option Nat
  | some a, some b => some (a + b)
  | _, _ => none

/-- Decoding of one payload stream at a byte offset, returning the value and
the next reading offset.  Mirrors the loop body of PixBlockDecoder.run: a
truthy compressedByteLength selects the inflate path, which branches on the
isTypedArray flag; the uncompressed path branches on the resolved
constructor being Object, reads object streams as length-many bytes through
a Uint8Array view, reads typed streams as length-many elements, and then
advances the offset by the raw byteLength field (absent for object streams,
leaving the next offset NaN).  Constructing a typed array from an
incompatible byte length, or with an undefined constructor, throws (none). -/
def decodeStreamAt (input : List Nat) (off : Nat) (bsi : StreamInfo) :
    Option (DecodedValue × Option Nat) :=
  let ctor := getDataTypeFromByteStreamInfo bsi
  if jsTruthy bsi.compressedByteLength then
    match bsi.compressedByteLength with
    | some l => do
        let comp ← extractExact input off l
        let infl ← inflate comp
        if bsi.isTypedArray then
          match ctor with
          | some (.ta k) =>
              if bytesPerElementOf k ∣ infl.length then
                pure (.typed ⟨k, infl⟩, some (off + l))
              else none
          | _ => none
        else do
          let v ← deserializeVal infl
          pure (.objv v, some (off + l))
    | none => none
  else
    match ctor with
    | some .obj => do
        let len := bsi.length.getD (input.length - off)
        let bytes ← extractExact input off len
        let v ← deserializeVal bytes
        pure (.objv v, addOpt (some off) bsi.byteLength)
    | some (.ta k) =>
        match bsi.length with
        | some l => do
            let bytes ← extractExact input off (l * bytesPerElementOf k)
            pure (.typed ⟨k, bytes⟩, addOpt (some off) bsi.byteLength)
        | none => do
            let bytes ← extractExact input off (input.length - off)
            if bytesPerElementOf k ∣ bytes.length then
              pure (.typed ⟨k, bytes⟩, addOpt (some off) bsi.byteLength)
            else none
    | none => none

/-- The stream loop of PixBlockDecoder.run over the header records.  A read
at a NaN offset is modelled as a failure; no encoder-produced unit reaches
that state. -/
def decodeStreamsLoop (input : List Nat) :
    Option Nat → List StreamInfo → Option (List DecodedValue)
  | _, [] => some []
  | none, _ :: _ => none
  | some off, bsi :: rest =>
      match decodeStreamAt input off bsi with
      | none => none
      | some (v, off2) =>
          match decodeStreamsLoop input off2 rest with
          | none => none
          | some vs => some (v :: vs)

/-- The header length read of PixBlockDecoder.run: the source calls
view.getUint32(1, readingByteOffset) where readingByteOffset is 1, so the
littleEndian argument is the truthy number 1 and the field is ALWAYS read
little-endian, regardless of the endianness flag byte just read.  DataView
throws when fewer than five bytes are available. -/
def pixBlockDecoderHeaderLen (input : List Nat) : Option Nat :=
  if 5 ≤ input.length then some (readU32LE input 1) else none

/-- The header parse of PixBlockDecoder.run: read the header length, slice
the header bytes after the five primer bytes and deserialize them. -/
def pixBlockDecoderHeader (input : List Nat) : Option PixBlockHeader := do
  let hl ← pixBlockDecoderHeaderLen input
  deserializeHeader (sliceBytes input 5 (5 + hl))

/-- PixBlockDecoder.run: parse the primer and header, slice and deserialize
the metadata, decode every payload stream in header order, unwrap a single
stream, and assemble the output object.  none models a thrown exception. -/
def pixBlockDecoderRun (input : List Nat) : Option DecodedBlock :=
  match pixBlockDecoderHeaderLen input with
  | none => none
  | some hl =>
      match deserializeHeader (sliceBytes input 5 (5 + hl)) with
      | none => none
      | some header =>
          match deserializeVal (sliceBytes input (5 + hl)
              (5 + hl + header.metadataByteLength)) with
          | none => none
          | some metadata =>
              match decodeStreamsLoop input
                  (some (5 + hl + header.metadataByteLength))
                  header.byteStreamInfo with
              | none => none
              | some streams =>
                  some { originalBlockType := header.originalBlockType
                         _data :=
                           match streams with
                           | [v] => BlockData.one v
                           | vs => BlockData.many vs
                         _metadata := metadata }

/-- One entry of the pixblocksInfo index of a PixBin: the constructor name of
the encoded container, an optional description copied from its metadata, the
byte length of the encoded block, and the digest of its bytes. -/
structure PixBinIndexEntry where
  type : String
  description : Option JSVal
  byteLength : Nat
  checksum : List Nat

/-- The PixBin index object written after the primer (pixBinIndex in the
source). -/
structure PixBinIndex where
  date : String
  createdWith : String
  description : Option JSVal
  userObject : Option JSVal
  pixblocksInfo : List PixBinIndexEntry

/-- Length-prefixed optional-value field encoding of the modelled value
codec. -/
def encOptVal : Option JSVal → List Nat
  | none => [0]
  | some v => 1 :: (enc4 (serializeVal v).length ++ serializeVal v)

/-- Reads back an optional-value field. -/
def decOptVal (bs : List Nat) : Option (Option JSVal × List Nat) :=
  match bs with
  | 0 :: rest => some (none, rest)
  | 1 :: rest => do
      let (n, r) ← dec4 rest
      if n ≤ r.length then
        let v ← deserializeVal (r.take n)
        pure (some v, r.drop n)
      else none
  | _ => none

/-- Serialization of one index entry. -/
def encBinIndexEntry (e : PixBinIndexEntry) : List Nat :=
  encString e.type ++ encOptVal e.description ++ enc4 e.byteLength ++
    enc4 e.checksum.length ++ e.checksum

/-- Reads back one index entry. -/
def decBinIndexEntry (bs : List Nat) : Option (PixBinIndexEntry × List Nat) := do
  let (t, r1) ← decString bs
  let (d, r2) ← decOptVal r1
  let (bl, r3) ← dec4 r2
  let (cl, r4) ← dec4 r3
  if cl ≤ r4.length then pure (⟨t, d, bl, r4.take cl⟩, r4.drop cl) else none

/-- Reads back a counted run of index entries. -/
def decBinIndexEntries : Nat → List Nat → Option (List PixBinIndexEntry × List Nat)
  | 0, bs => some ([], bs)
  | n + 1, bs => do
      let (e, r) ← decBinIndexEntry bs
      let (es, r2) ← decBinIndexEntries n r
      pure (e :: es, r2)

/-- Modelled from the spec: the external value codec applied to the PixBin
index object (CodecUtils.objectToArrayBuffer on pixBinIndex). -/
def serializeBinIndex (idx : PixBinIndex) : List Nat :=
  encString idx.date ++ encString idx.createdWith ++ encOptVal idx.description ++
    encOptVal idx.userObject ++ enc4 idx.pixblocksInfo.length ++
    (idx.pixblocksInfo.map encBinIndexEntry).flatten

/-- Modelled from the spec: the external value codec reading back a PixBin
index object; it consumes the whole slice and errors on malformed bytes. -/
def deserializeBinIndex (bs : List Nat) : Option PixBinIndex := do
  let (dt, r1) ← decString bs
  let (cw, r2) ← decString r1
  let (d, r3) ← decOptVal r2
  let (u, r4) ← decOptVal r3
  let (n, r5) ← dec4 r4
  let (es, r6) ← decBinIndexEntries n r5
  if r6 = [] then pure ⟨dt, cw, d, u, es⟩ else none

/-- The copy of a description attribute from a container metadata into its
index entry: present when the metadata object has a description key, null
otherwise.  The JavaScript in operator on a non-object metadata would throw,
a corner no claim exercises. -/
def descriptionFromMetadata : JSVal → Option JSVal
  | .jobj fields => (fields.find? (fun f => f.1 = "description")).map (·.2)
  | _ => none

/-- The options object of PixBinEncoder together with the creation date the
source takes from the clock at run time (modelled as an input). -/
structure PixBinOptions where
  madeWith : String := "pixbincodec_js"
  userObject : Option JSVal := none
  description : Option JSVal := none

/-- The ASCII codes of the PixBin magic number PIXPIPE_PIXBIN. -/
def magicBytes : List Nat := [80, 73, 88, 80, 73, 80, 69, 95, 80, 73, 88, 66, 73, 78]

/-- The forEach loop of PixBinEncoder.run over the added inputs: a block
that encodes is appended to the collected blocks together with its index
entry (built in the same iteration, so entries and blocks stay in lock
step); an input the block encoder leaves without output is skipped; a thrown
exception (crash) propagates and aborts the whole run (none). -/
def pixBinEncoderLoop (compress : Bool) : List Container →
    Option (List PixBinIndexEntry × List (List Nat))
  | [] => some ([], [])
  | input :: rest =>
      match pixBlockEncoderRun input compress with
      | .crash => none
      | .noOutput => pixBinEncoderLoop compress rest
      | .ok b => do
          let (entries, blocks) ← pixBinEncoderLoop compress rest
          pure
            (⟨input.ctorName, descriptionFromMetadata input._metadata,
              b.length, md5 b⟩ :: entries,
             b :: blocks)

/-- PixBinEncoder.addInput keeps only good candidates; the inputs list the
run loop sees therefore consists of good candidates only. -/
def pixBinEncoderAddInputs (objs : List Container) : List Container :=
  objs.filter isGoodCandidate

/-- PixBinEncoder.run on a list of added inputs: no inputs is an early
return; otherwise encode the blocks, build the index (the source only warns,
without returning, when no block encoded), serialize it, and emit magic
number, endianness byte, four length bytes, index bytes and the concatenated
blocks. -/
def pixBinEncoderRun (objs : List Container) (compress : Bool)
    (opts : PixBinOptions) (date : String) : Option (List Nat) :=
  if (pixBinEncoderAddInputs objs).isEmpty then none
  else
    match pixBinEncoderLoop compress (pixBinEncoderAddInputs objs) with
    | none => none
    | some (entries, blocks) =>
        some (magicBytes ++
          (if isPlatformLittleEndian then 1 else 0) ::
            u32le (serializeBinIndex
              { date := date
                createdWith := opts.madeWith
                description := opts.description
                userObject := opts.userObject
                pixblocksInfo := entries }).length ++
            serializeBinIndex
              { date := date
                createdWith := opts.madeWith
                description := opts.description
                userObject := opts.userObject
                pixblocksInfo := entries } ++ blocks.flatten)

/-- Outcome of PixBinDecoder.run: a warn-and-return that reports an invalid
buffer without throwing, a thrown exception, or the output object holding
the parsed index and the list of decoded blocks. -/
inductive BinRunResult where
  | invalid
  | crash
  | ok (meta : PixBinIndex) (blocks : List DecodedBlock)

/-- The block loop of PixBinDecoder.run: slice byteLength bytes per index
entry, advance the moving offset, skip the block when verification is on and
the digest of the slice differs from the indexed checksum, otherwise decode
the block (a decoder exception propagates, none) and collect the result. -/
def binDecodeLoop (input : List Nat) (verify : Bool) :
    Nat → List PixBinIndexEntry → Option (List DecodedBlock)
  | _, [] => some []
  | off, e :: rest =>
      if verify ∧ md5 (sliceBytes input off (off + e.byteLength))
          ≠ e.checksum then
        binDecodeLoop input verify (off + e.byteLength) rest
      else
        match pixBlockDecoderRun (sliceBytes input off (off + e.byteLength)) with
        | none => none
        | some d =>
            match binDecodeLoop input verify (off + e.byteLength) rest with
            | none => none
            | some ds => some (d :: ds)

/-- The part of PixBinDecoder.run after the three validity controls: read
the index length in the declared endianness, deserialize the index (an
exception propagates) and decode every block eagerly. -/
def pixBinDecoderBody (input : List Nat) (verify : Bool) (endianByte : Nat) :
    BinRunResult :=
  match deserializeBinIndex
      (sliceBytes input (magicBytes.length + 5)
        (magicBytes.length + 5 +
          readU32 input (magicBytes.length + 1) (endianByte = 1))) with
  | none => .crash
  | some idx =>
      match binDecodeLoop input verify
          (magicBytes.length + 5 +
            readU32 input (magicBytes.length + 1) (endianByte = 1))
          idx.pixblocksInfo with
      | none => .crash
      | some blocks => .ok idx blocks

/-- PixBinDecoder.run: report invalid when the buffer is shorter than magic
plus five bytes, when the leading bytes differ from the magic number, or
when the endianness byte is neither 0 nor 1; otherwise run the body on the
declared endianness. -/
def pixBinDecoderRun (input : List Nat) (verify : Bool) : BinRunResult :=
  if input.length < magicBytes.length + 5 then .invalid
  else if input.take magicBytes.length ≠ magicBytes then .invalid
  else if input.getD magicBytes.length 0 ≠ 0 ∧
      input.getD magicBytes.length 0 ≠ 1 then .invalid
  else pixBinDecoderBody input verify (input.getD magicBytes.length 0)

/-- Modelled from the spec: the state an archive decoder holds after a
successful parseIndex — the input buffer, the parsed index, the byte offset
at which the first unit begins, and the verification switch.  The source in
this snapshot decodes every block eagerly inside run and has no such state;
the lazy interface of the specification is modelled here. -/
structure PixBinParsed where
  buffer : List Nat
  index : PixBinIndex
  offsetToFirstBlock : Nat
  verifyChecksum : Bool

/-- The byte offset of unit i, derived by summing the byteLength fields of
the index entries before it, as the specification prescribes. -/
def blockRangeStart (p : PixBinParsed) (i : Nat) : Nat :=
  p.offsetToFirstBlock +
    ((p.index.pixblocksInfo.take i).map (·.byteLength)).sum

/-- Outcome of one fetch: index out of range, checksum mismatch, a unit
decode failure, or the decoded block. -/
inductive FetchResult where
  | outOfRange
  | checksumError
  | decodeError
  | ok (b : DecodedBlock)

/-- Modelled from the spec: the uncached body of fetchBlock — slice exactly
byteLength bytes at the derived offset, compare the digest against the
indexed checksum when verification is enabled (a mismatch aborts the fetch
with a checksum error and returns no data), otherwise run the unit
decoder. -/
def fetchBlockCore (p : PixBinParsed) (i : Nat) : FetchResult :=
  match p.index.pixblocksInfo.get? i with
  | none => .outOfRange
  | some e =>
      let bytes :=
        sliceBytes p.buffer (blockRangeStart p i)
          (blockRangeStart p i + e.byteLength)
      if p.verifyChecksum ∧ md5 bytes ≠ e.checksum then .checksumError
      else
        match pixBlockDecoderRun bytes with
        | none => .decodeError
        | some d => .ok d

/-- Modelled from the spec: the private per-index decode cache of the
archive decoder, an index-keyed map of decoded units. -/
structure BinDecoderCache where
  entries : List (Nat × DecodedBlock)

/-- Lookup of a cached decode result by index. -/
def cacheLookup (c : BinDecoderCache) (i : Nat) : Option DecodedBlock :=
  (c.entries.find? (fun e => e.1 = i)).map (·.2)

/-- Insertion of a decode result into the cache. -/
def cacheInsert (c : BinDecoderCache) (i : Nat) (d : DecodedBlock) :
    BinDecoderCache :=
  ⟨(i, d) :: c.entries⟩

/-- Modelled from the spec: fetchBlock(i, forceRedecode) — out of range is
an error; a cached entry is returned unless a redecode is forced; otherwise
the uncached body runs and a successful decode is cached.  The boolean in
the result records whether the uncached body ran (the fresh pass), so that
laziness and at-most-once decoding are statable. -/
def fetchBlock (p : PixBinParsed) (c : BinDecoderCache) (i : Nat)
    (forceRedecode : Bool) : FetchResult × BinDecoderCache × Bool :=
  if p.index.pixblocksInfo.length ≤ i then (.outOfRange, c, false)
  else
    match cacheLookup c i, forceRedecode with
    | some d, false => (.ok d, c, false)
    | _, _ =>
        match fetchBlockCore p i with
        | .ok d => (.ok d, cacheInsert c i d, true)
        | r => (r, c, true)

/-- A sequence of fetch requests run against one decoder state, returning
the final cache and the log of the indices whose uncached body ran. -/
def runFetchTrace (p : PixBinParsed) (c : BinDecoderCache) :
    List (Nat × Bool) → BinDecoderCache × List Nat
  | [] => (c, [])
  | (i, f) :: rest =>
      ((runFetchTrace p (fetchBlock p c i f).2.1 rest).1,
       (if (fetchBlock p c i f).2.2 then [i] else []) ++
         (runFetchTrace p (fetchBlock p c i f).2.1 rest).2)

/-! Concrete sample values used by the witness theorems. -/

/-- A container holding a two-byte Uint8Array and a small metadata object. -/
def sampleContainer : Container :=
  ⟨"Image2D", .typedArr ⟨.uint8, [7, 9]⟩, .jobj [("unit", .jstr "mm")]⟩

/-- A container whose _data is an Array holding one plain object: a good
candidate (case 2), but its uncompressed encoding pushes an undefined
buffer. -/
def badContainer : Container :=
  ⟨"Object", .mixedArr [.plain (.jobj [])], .jobj []⟩

/-- A container whose _data is an Array of two typed arrays. -/
def mixedContainer : Container :=
  ⟨"Mesh", .mixedArr [.typed ⟨.uint8, [1]⟩, .typed ⟨.uint8, [2, 3]⟩], .jobj []⟩

/-- The unit encoded from sampleContainer without compression. -/
def sampleUnit : List Nat :=
  (encOk (pixBlockEncoderRun sampleContainer false)).getD []

/-- The unit encoded from mixedContainer without compression. -/
def mixedUnit : List Nat :=
  (encOk (pixBlockEncoderRun mixedContainer false)).getD []

/-- The block decoded back from sampleUnit. -/
def sampleDecoded : DecodedBlock :=
  (pixBlockDecoderRun sampleUnit).getD ⟨"", .many [], .jnull⟩

/-- The header of sampleUnit as the decoder parses it. -/
def sampleHeader : PixBlockHeader :=
  (pixBlockDecoderHeader sampleUnit).getD ⟨[], "", 0⟩

/-- The header of mixedUnit as the decoder parses it. -/
def mixedHeader : PixBlockHeader :=
  (pixBlockDecoderHeader mixedUnit).getD ⟨[], "", 0⟩

/-- The header byte length of sampleUnit. -/
def sampleHeaderLen : Nat := readU32LE sampleUnit 1

/-- The header byte length of mixedUnit. -/
def mixedHeaderLen : Nat := readU32LE mixedUnit 1

/-- The block decoded back from mixedUnit. -/
def mixedDecoded : DecodedBlock :=
  (pixBlockDecoderRun mixedUnit).getD ⟨"", .many [], .jnull⟩

/-- The sampleUnit rewritten as a big-endian encoder would have written it:
endianness flag 0 and the header length field in big-endian byte order. -/
def beFlagUnit : List Nat := 0 :: (u32be sampleHeaderLen ++ sampleUnit.drop 5)

/-- The sampleUnit with the endianness flag forced to 0 while the header
length field stays little-endian. -/
def leFlagUnit : List Nat := 0 :: (u32le sampleHeaderLen ++ sampleUnit.drop 5)

/-- A two-entry PixBin index matching sampleUnit and mixedUnit. -/
def sampleBinIndex : PixBinIndex :=
  ⟨"2018-01-01T00:00:00.000Z", "pixbincodec_js", none, none,
   [⟨"Image2D", none, sampleUnit.length, md5 sampleUnit⟩,
    ⟨"Mesh", none, mixedUnit.length, md5 mixedUnit⟩]⟩

/-- A parsed two-unit archive state with verification enabled. -/
def sampleParsed : PixBinParsed :=
  ⟨sampleUnit ++ mixedUnit, sampleBinIndex, 0, true⟩

/-- A buffer that passes the magic, length and endianness checks of the bin
decoder but whose header bytes do not deserialize. -/
def garbageHeaderBin : List Nat := magicBytes ++ 1 :: (u32le 2 ++ [255, 255])

/-! Helper lemmas about slices of concatenated buffers. -/

/-- Slicing a buffer right after a known front returns a take of the rest. -/
theorem sliceBytes_append (p rest : List Nat) (k : Nat) :
    sliceBytes (p ++ rest) p.length (p.length + k) = rest.take k := by
  unfold sliceBytes
  rw [List.take_append, List.drop_left]

/-- Setting an element of a list to the value it already holds is the
identity. -/
theorem set_get?_self {α : Type} : ∀ (l : List α) (i : Nat) (x : α),
    l.get? i = some x → l.set i x = l
  | [], _, _, h => by cases h
  | a :: l, 0, x, h => by
      simp only [List.get?] at h
      cases h
      rfl
  | a :: l, i + 1, x, h => by
      simp only [List.get?] at h
      simp [List.set, set_get?_self l i x h]

/-- The slice of a flattened unit list at the summed offset of unit i is
unit i. -/
theorem sliceBytes_flatten_get : ∀ (units : List (List Nat)) (i : Nat)
    (front : List Nat) (hi : i < units.length),
    sliceBytes (front ++ units.flatten)
      (front.length + ((units.take i).map List.length).sum)
      (front.length + ((units.take i).map List.length).sum +
        (units.get ⟨i, hi⟩).length)
    = units.get ⟨i, hi⟩
  | [], i, front, hi => by cases hi
  | u :: us, 0, front, hi => by
      simp only [List.take_zero, List.map_nil, List.sum_nil, Nat.add_zero,
        List.get, List.flatten_cons]
      rw [sliceBytes_append front (u ++ us.flatten) u.length, List.take_left]
  | u :: us, i + 1, front, hi => by
      have hi2 : i < us.length := by simpa using hi
      have key := sliceBytes_flatten_get us i (front ++ u) hi2
      simp only [List.take_succ_cons, List.map_cons, List.sum_cons, List.get,
        List.flatten_cons]
      rw [← List.append_assoc]
      simp only [List.length_append, Nat.add_assoc] at key
      simpa only [Nat.add_assoc] using key

/-! Claim theorems. -/

/-- C1: the round trip claim fails on the code.  The container whose _data
is the Array [object] is a good candidate that the classifier accepts (case
2), yet encoding it without compression crashes: the loop serializes the
element and records its length in the header, but the payload push reads
buffer from the original element, which is undefined.  With compression on,
the same container encodes fine, confirming the uncompressed path is the
slip. -/
theorem encode_crash_on_uncompressed_plain_element :
    isGoodCandidate badContainer = true ∧
    pixBlockEncoderRun badContainer false = .crash ∧
    pixBlockEncoderRun badContainer true ≠ .crash := by
  refine ⟨rfl, rfl, by decide⟩

/-- C3: the unit decoder does not read the header length in the declared
endianness.  Both variants below declare big-endian (flag byte 0).  The one
whose length field is written big-endian (as the declaration demands) fails
to decode, while the one whose length field is little-endian decodes fine:
the source passes the reading offset 1, a truthy value, as the littleEndian
argument of getUint32, so the field is always read little-endian. -/
theorem headerLen_read_ignores_endian_flag :
    beFlagUnit.getD 0 9 = 0 ∧
    readU32BE beFlagUnit 1 = sampleHeaderLen ∧
    pixBlockDecoderRun beFlagUnit = none ∧
    leFlagUnit.getD 0 9 = 0 ∧
    (pixBlockDecoderRun leFlagUnit).isSome = true ∧
    pixBlockDecoderHeaderLen beFlagUnit = some (readU32LE beFlagUnit 1) := by
  exact ⟨rfl, by decide, rfl, rfl, by decide, rfl⟩

/-- C5: archive encoding does not drop a failing input and continue.  The
first container encodes as a unit, yet running the archive encoder on both
containers produces no archive at all, because the second container makes
the block encoder throw and the exception propagates out of the loop. -/
theorem bin_run_crashes_despite_partial_success :
    (encOk (pixBlockEncoderRun sampleContainer false)).isSome = true ∧
    pixBinEncoderRun [sampleContainer, badContainer] false {}
      "2018-01-01T00:00:00.000Z" = none := by
  exact ⟨by decide, rfl⟩

/-- C6 counterexample: a buffer that is long enough, carries the magic
number and a valid endianness byte, is not reported invalid but does not
succeed either — its header bytes do not deserialize and the exception
escapes, refuting the claim that parsing succeeds whenever the three checks
pass. -/
theorem binRun_valid_primer_can_still_fail :
    magicBytes.length + 5 ≤ garbageHeaderBin.length ∧
    garbageHeaderBin.take magicBytes.length = magicBytes ∧
    garbageHeaderBin.getD magicBytes.length 0 = 1 ∧
    pixBinDecoderRun garbageHeaderBin false = .crash := by
  exact ⟨by decide, by decide, by decide, rfl⟩

/-- The body of the archive decoder never reports invalid: once the three
primer controls pass, every failure is a thrown exception. -/
theorem pixBinDecoderBody_ne_invalid (input : List Nat) (v : Bool) (e : Nat) :
    pixBinDecoderBody input v e ≠ .invalid := by
  unfold pixBinDecoderBody
  split
  · simp
  · split <;> simp

/-- C6 amended: the archive decoder reports invalid, without throwing,
exactly when the buffer is shorter than the magic number plus five bytes, or
its leading bytes differ from the magic number, or the endianness byte is
neither 0 nor 1; in every other case it proceeds to parse, which succeeds
exactly when the header deserializes and the block loop raises nothing. -/
theorem binRun_invalid_iff (input : List Nat) (v : Bool) :
    pixBinDecoderRun input v = .invalid ↔
      (input.length < magicBytes.length + 5 ∨
       input.take magicBytes.length ≠ magicBytes ∨
       (input.getD magicBytes.length 0 ≠ 0 ∧
        input.getD magicBytes.length 0 ≠ 1)) := by
  unfold pixBinDecoderRun
  split_ifs with h1 h2 h3
  · exact iff_of_true rfl (Or.inl h1)
  · exact iff_of_true rfl (Or.inr (Or.inl h2))
  · exact iff_of_true rfl (Or.inr (Or.inr h3))
  · refine iff_of_false
      (pixBinDecoderBody_ne_invalid input v (input.getD magicBytes.length 0)) ?_
    rintro (h | h | h)
    · exact h1 h
    · exact h2 h
    · exact h3 h

/-- A freshly inserted cache entry is found by a lookup at its index. -/
theorem cacheLookup_insert_self (c : BinDecoderCache) (i : Nat)
    (d : DecodedBlock) : cacheLookup (cacheInsert c i d) i = some d := by
  simp [cacheLookup, cacheInsert]

/-- C2: the modelled fetchBlock is lazy and memoized.  First, a successful
fetch is cached: the next fetch of the same index without forceRedecode
returns the identical result from the cache, leaves the cache unchanged, and
does not run the uncached body at all, so the unit decode runs at most once.
Second, forceRedecode makes every in-range fetch run a fresh pass.  Third,
the uncached body only ever runs for indices that were actually requested:
units never requested are never decoded. -/
theorem fetchBlock_memoizes_and_lazy (p : PixBinParsed) :
    (∀ (c : BinDecoderCache) (i : Nat) (d : DecodedBlock),
        (fetchBlock p c i false).1 = .ok d →
        fetchBlock p (fetchBlock p c i false).2.1 i false
          = (.ok d, (fetchBlock p c i false).2.1, false)) ∧
    (∀ (c : BinDecoderCache) (i : Nat),
        i < p.index.pixblocksInfo.length →
        (fetchBlock p c i true).2.2 = true) ∧
    (∀ (c : BinDecoderCache) (reqs : List (Nat × Bool)) (j : Nat),
        j ∈ (runFetchTrace p c reqs).2 → j ∈ reqs.map Prod.fst) := by
  refine ⟨?_, ?_, ?_⟩
  · intro c i d h
    by_cases hi : p.index.pixblocksInfo.length ≤ i
    · unfold fetchBlock at h
      rw [if_pos hi] at h
      simp at h
    · cases hc : cacheLookup c i with
      | some d0 =>
          have hfc : fetchBlock p c i false = (.ok d0, c, false) := by
            unfold fetchBlock
            rw [if_neg hi, hc]
          rw [hfc] at h
          have h2 : FetchResult.ok d0 = .ok d := h
          cases h2
          rw [hfc]
          exact hfc
      | none =>
          cases hcore : fetchBlockCore p i with
          | ok d1 =>
              have hfc : fetchBlock p c i false
                  = (.ok d1, cacheInsert c i d1, true) := by
                unfold fetchBlock
                rw [if_neg hi, hc, hcore]
              rw [hfc] at h
              have h2 : FetchResult.ok d1 = .ok d := h
              cases h2
              rw [hfc]
              show fetchBlock p (cacheInsert c i d) i false = _
              unfold fetchBlock
              rw [if_neg hi, cacheLookup_insert_self]
          | outOfRange =>
              have hfc : fetchBlock p c i false = (.outOfRange, c, true) := by
                unfold fetchBlock
                rw [if_neg hi, hc, hcore]
              rw [hfc] at h
              cases h
          | checksumError =>
              have hfc : fetchBlock p c i false = (.checksumError, c, true) := by
                unfold fetchBlock
                rw [if_neg hi, hc, hcore]
              rw [hfc] at h
              cases h
          | decodeError =>
              have hfc : fetchBlock p c i false = (.decodeError, c, true) := by
                unfold fetchBlock
                rw [if_neg hi, hc, hcore]
              rw [hfc] at h
              cases h
  · intro c i hi
    unfold fetchBlock
    rw [if_neg (by omega)]
    cases hc : cacheLookup c i <;> cases hcore : fetchBlockCore p i <;>
      simp [hc, hcore]
  · intro c reqs
    induction reqs generalizing c with
    | nil =>
        intro j hj
        simp [runFetchTrace] at hj
    | cons head tail ih =>
        obtain ⟨i, f⟩ := head
        intro j hj
        simp only [runFetchTrace] at hj
        rcases List.mem_append.1 hj with h | h
        · by_cases hb : (fetchBlock p c i f).2.2 = true
          · rw [if_pos hb] at h
            simp at h
            subst h
            simp
          · rw [if_neg hb] at h
            simp at h
        · have hmem := ih _ _ h
          simp only [List.map_cons]
          exact List.mem_cons_of_mem _ hmem

/-- Witness for the memoization theorem at a concrete two-unit archive. -/
theorem fetchBlock_memoizes_and_lazy_witness :
    fetchBlock sampleParsed (fetchBlock sampleParsed ⟨[]⟩ 0 false).2.1 0 false
      = (.ok sampleDecoded, (fetchBlock sampleParsed ⟨[]⟩ 0 false).2.1, false) ∧
    (fetchBlock sampleParsed ⟨[]⟩ 1 true).2.2 = true ∧
    0 ∈ ([(0, false), (0, false)] : List (Nat × Bool)).map Prod.fst :=
  ⟨(fetchBlock_memoizes_and_lazy sampleParsed).1 ⟨[]⟩ 0 sampleDecoded rfl,
   (fetchBlock_memoizes_and_lazy sampleParsed).2.1 ⟨[]⟩ 1 (by decide),
   (fetchBlock_memoizes_and_lazy sampleParsed).2.2 ⟨[]⟩ [(0, false), (0, false)]
     0 (by decide)⟩

/-- On a well-formed parsed state whose index byteLength fields match the
unit lengths, the derived offset and length of unit j slice out exactly
unit j. -/
theorem fetchBlockCore_slice (front : List Nat) (us : List (List Nat))
    (idx : PixBinIndex) (j : Nat) (hj : j < us.length)
    (hlen : idx.pixblocksInfo.map (fun e => e.byteLength) = us.map List.length)
    (v : Bool) (e : PixBinIndexEntry)
    (he : idx.pixblocksInfo.get? j = some e) :
    sliceBytes (front ++ us.flatten)
      (blockRangeStart ⟨front ++ us.flatten, idx, front.length, v⟩ j)
      (blockRangeStart ⟨front ++ us.flatten, idx, front.length, v⟩ j +
        e.byteLength)
      = us.get ⟨j, hj⟩ := by
  have hbl : e.byteLength = (us.get ⟨j, hj⟩).length := by
    have h1 : (idx.pixblocksInfo.map (fun e => e.byteLength)).get? j
        = some e.byteLength := by
      rw [List.get?_eq_getElem?, List.getElem?_map, ← List.get?_eq_getElem?,
        he]
      rfl
    have h2 : (us.map List.length).get? j
        = some (us.get ⟨j, hj⟩).length := by
      rw [List.get?_eq_getElem?, List.getElem?_map, ← List.get?_eq_getElem?,
        List.get?_eq_get hj]
      rfl
    rw [hlen, h2] at h1
    exact (Option.some.injEq _ _ ▸ h1).symm ▸ rfl
  have hstart : blockRangeStart ⟨front ++ us.flatten, idx, front.length, v⟩ j
      = front.length + ((us.take j).map List.length).sum := by
    unfold blockRangeStart
    rw [List.map_take, hlen, ← List.map_take]
  rw [hstart, hbl]
  exact sliceBytes_flatten_get us j front hj

/-- On a well-formed parsed state, the uncached fetch body at index j checks
the digest of unit j against its index entry and decodes unit j. -/
theorem fetchBlockCore_at (front : List Nat) (us : List (List Nat))
    (idx : PixBinIndex) (j : Nat) (hj : j < us.length)
    (hlen : idx.pixblocksInfo.map (fun e => e.byteLength) = us.map List.length)
    (v : Bool) (e : PixBinIndexEntry)
    (he : idx.pixblocksInfo.get? j = some e) :
    fetchBlockCore ⟨front ++ us.flatten, idx, front.length, v⟩ j
      = if v ∧ md5 (us.get ⟨j, hj⟩) ≠ e.checksum then .checksumError
        else match pixBlockDecoderRun (us.get ⟨j, hj⟩) with
          | none => .decodeError
          | some d => .ok d := by
  unfold fetchBlockCore
  rw [he]
  dsimp only
  rw [fetchBlockCore_slice front us idx j hj hlen v e he]

/-- C4: on a verified archive whose index matches its units, flipping one
byte inside the byte range of unit i makes the fetch of index i abort with a
checksum error and return no decoded data, while the fetch of every other
index is bit-for-bit unaffected: it returns exactly what it returns on the
intact archive, in particular the correct decoded container whenever the
intact fetch succeeds. -/
theorem fetchBlock_flip_checksum
    (front : List Nat) (units : List (List Nat)) (idx : PixBinIndex)
    (i q b : Nat)
    (hlen : idx.pixblocksInfo.map (fun e => e.byteLength)
      = units.map List.length)
    (hck : ∀ pr ∈ idx.pixblocksInfo.zip units, pr.1.checksum = md5 pr.2)
    (hi : i < units.length)
    (hq : q < (units.get ⟨i, hi⟩).length)
    (hb : b ≠ (units.get ⟨i, hi⟩).get ⟨q, hq⟩) :
    (fetchBlock ⟨front ++ (units.set i ((units.get ⟨i, hi⟩).set q b)).flatten,
        idx, front.length, true⟩ ⟨[]⟩ i false).1 = .checksumError ∧
    (∀ j, j ≠ i →
        fetchBlock ⟨front ++ (units.set i ((units.get ⟨i, hi⟩).set q b)).flatten,
          idx, front.length, true⟩ ⟨[]⟩ j false
        = fetchBlock ⟨front ++ units.flatten, idx, front.length, true⟩
            ⟨[]⟩ j false) ∧
    (∀ j d, j ≠ i →
        (fetchBlock ⟨front ++ units.flatten, idx, front.length, true⟩
          ⟨[]⟩ j false).1 = .ok d →
        (fetchBlock ⟨front ++ (units.set i ((units.get ⟨i, hi⟩).set q b)).flatten,
          idx, front.length, true⟩ ⟨[]⟩ j false).1 = .ok d) := by
  have hEntriesLen : idx.pixblocksInfo.length = units.length := by
    have := congrArg List.length hlen
    simpa using this
  have hlen2 : idx.pixblocksInfo.map (fun e => e.byteLength)
      = (units.set i ((units.get ⟨i, hi⟩).set q b)).map List.length := by
    rw [List.map_set]
    rw [hlen]
    apply Eq.symm
    apply set_get?_self
    rw [List.get?_eq_getElem?, List.getElem?_map, ← List.get?_eq_getElem?,
      List.get?_eq_get hi]
    simp [List.length_set]
  have hcacheNone : ∀ k, cacheLookup ⟨[]⟩ k = none := by
    intro k
    rfl
  -- the entry of index i and its checksum
  have hiE : i < idx.pixblocksInfo.length := by omega
  have heI : idx.pixblocksInfo.get? i
      = some (idx.pixblocksInfo.get ⟨i, hiE⟩) := List.get?_eq_get hiE
  have hckI : (idx.pixblocksInfo.get ⟨i, hiE⟩).checksum
      = md5 (units.get ⟨i, hi⟩) := by
    refine hck (idx.pixblocksInfo.get ⟨i, hiE⟩, units.get ⟨i, hi⟩) ?_
    apply List.get?_mem
    rw [List.get?_eq_getElem?, List.getElem?_zip_eq_some]
    constructor
    · rw [← List.get?_eq_getElem?]
      exact heI
    · rw [← List.get?_eq_getElem?]
      exact List.get?_eq_get hi
  -- the flipped unit differs from the original
  have hne : (units.get ⟨i, hi⟩).set q b ≠ units.get ⟨i, hi⟩ := by
    intro heq
    apply hb
    have h1 : ((units.get ⟨i, hi⟩).set q b)[q]? = some b :=
      List.getElem?_set_eq_of_lt b hq
    rw [heq] at h1
    have h2 : (units.get ⟨i, hi⟩)[q]?
        = some ((units.get ⟨i, hi⟩).get ⟨q, hq⟩) := by
      rw [← List.get?_eq_getElem?]
      exact List.get?_eq_get hq
    rw [h2] at h1
    exact (Option.some.inj h1).symm
  have hi2 : i < (units.set i ((units.get ⟨i, hi⟩).set q b)).length := by
    simpa [List.length_set] using hi
  have hgetI2 : (units.set i ((units.get ⟨i, hi⟩).set q b)).get ⟨i, hi2⟩
      = (units.get ⟨i, hi⟩).set q b := by
    simp [List.get_eq_getElem]
  -- part 1: the corrupted index aborts with a checksum error
  have part1 : (fetchBlock
      ⟨front ++ (units.set i ((units.get ⟨i, hi⟩).set q b)).flatten,
        idx, front.length, true⟩ ⟨[]⟩ i false).1 = .checksumError := by
    unfold fetchBlock
    dsimp only
    rw [if_neg (by omega), hcacheNone i]
    have hcore := fetchBlockCore_at front
      (units.set i ((units.get ⟨i, hi⟩).set q b)) idx i hi2 hlen2 true
      (idx.pixblocksInfo.get ⟨i, hiE⟩) heI
    rw [hgetI2] at hcore
    rw [hcore, if_pos]
    refine ⟨rfl, ?_⟩
    rw [hckI]
    unfold md5
    exact fun h => hne h
  -- part 2: every other index is unaffected
  have part2 : ∀ j, j ≠ i →
      fetchBlock ⟨front ++ (units.set i ((units.get ⟨i, hi⟩).set q b)).flatten,
        idx, front.length, true⟩ ⟨[]⟩ j false
      = fetchBlock ⟨front ++ units.flatten, idx, front.length, true⟩
          ⟨[]⟩ j false := by
    intro j hj
    by_cases hjr : idx.pixblocksInfo.length ≤ j
    · unfold fetchBlock
      dsimp only
      rw [if_pos hjr, if_pos hjr]
    · have hju : j < units.length := by omega
      have hju2 : j < (units.set i ((units.get ⟨i, hi⟩).set q b)).length := by
        simpa [List.length_set] using hju
      have heJ : idx.pixblocksInfo.get? j
          = some (idx.pixblocksInfo.get ⟨j, by omega⟩) :=
        List.get?_eq_get (by omega)
      have hgetJ : (units.set i ((units.get ⟨i, hi⟩).set q b)).get ⟨j, hju2⟩
          = units.get ⟨j, hju⟩ := by
        simp [List.get_eq_getElem,
          List.getElem_set_ne (show i ≠ j from fun h => hj h.symm)]
      have hcore2 := fetchBlockCore_at front
        (units.set i ((units.get ⟨i, hi⟩).set q b)) idx j hju2 hlen2 true
        (idx.pixblocksInfo.get ⟨j, by omega⟩) heJ
      have hcore1 := fetchBlockCore_at front units idx j hju hlen true
        (idx.pixblocksInfo.get ⟨j, by omega⟩) heJ
      rw [hgetJ] at hcore2
      unfold fetchBlock
      dsimp only
      rw [if_neg hjr, if_neg hjr, hcacheNone j, hcore1, hcore2]
  refine ⟨part1, part2, ?_⟩
  intro j d hj hok
  rw [part2 j hj]
  exact hok

/-- Witness for the flip theorem at a concrete two-unit archive with byte 6
of unit 0 flipped to 255. -/
theorem fetchBlock_flip_checksum_witness :
    (fetchBlock ⟨[] ++ (([sampleUnit, mixedUnit]).set 0
        ((([sampleUnit, mixedUnit]).get ⟨0, by decide⟩).set 6 255)).flatten,
      sampleBinIndex, ([] : List Nat).length, true⟩ ⟨[]⟩ 0 false).1
      = .checksumError ∧
    fetchBlock ⟨[] ++ (([sampleUnit, mixedUnit]).set 0
        ((([sampleUnit, mixedUnit]).get ⟨0, by decide⟩).set 6 255)).flatten,
      sampleBinIndex, ([] : List Nat).length, true⟩ ⟨[]⟩ 1 false
      = fetchBlock ⟨[] ++ ([sampleUnit, mixedUnit]).flatten,
          sampleBinIndex, ([] : List Nat).length, true⟩ ⟨[]⟩ 1 false := by
  have h := fetchBlock_flip_checksum [] [sampleUnit, mixedUnit] sampleBinIndex
    0 6 255 rfl (by decide) (by decide) (by decide) (by decide)
  exact ⟨h.1, h.2.1 1 (by decide)⟩

/-- Merging four present buffers in front of further chunks succeeds exactly
when the chunks merge, and prepends the four buffers to their merge. -/
theorem mergeBuffers_somes (b1 b2 b3 b4 : List Nat)
    (chunks : List (Option (List Nat))) (out : List Nat)
    (h : mergeBuffers ([some b1, some b2, some b3, some b4] ++ chunks)
      = some out) :
    ∃ pay, mergeBuffers chunks = some pay ∧
      out = b1 ++ (b2 ++ (b3 ++ (b4 ++ pay))) := by
  simp only [List.cons_append, List.nil_append, List.append_eq,
    mergeBuffers] at h
  cases hm : mergeBuffers chunks with
  | none => rw [hm] at h; simp at h
  | some pay =>
      rw [hm] at h
      simp only [Option.map] at h
      exact ⟨pay, rfl, (Option.some.inj h).symm⟩

/-- The assembly step shared by every branch of PixBlockEncoder.run: if the
merge of primer, header, metadata and payload chunks produces a unit, that
unit starts with the endianness byte, the header length, the header and the
uncompressed serialized metadata. -/
theorem encoderAssemble_shape (nm : String) (md : JSVal)
    (parts : List StreamInfo × List (Option (List Nat))) (out : List Nat)
    (h : (match mergeBuffers
        ([some [if isPlatformLittleEndian then 1 else 0],
          some (u32le (serializeHeader
            ⟨parts.1, nm, (serializeVal md).length⟩).length),
          some (serializeHeader ⟨parts.1, nm, (serializeVal md).length⟩),
          some (serializeVal md)] ++ parts.2) with
      | some o => EncResult.ok o
      | none => EncResult.crash) = .ok out) :
    ∃ infos pay,
      out = 1 :: (u32le (serializeHeader ⟨infos, nm,
          (serializeVal md).length⟩).length ++
        (serializeHeader ⟨infos, nm, (serializeVal md).length⟩ ++
        (serializeVal md ++ pay))) := by
  split at h
  · rename_i o heq
    obtain ⟨pay, hpay, hout⟩ := mergeBuffers_somes _ _ _ _ _ _ heq
    cases h
    exact ⟨parts.1, pay, by simpa [isPlatformLittleEndian] using hout⟩
  · cases h

/-- C8: every unit the encoder emits, for both values of the compress flag,
consists of the endianness byte, the four little-endian header length bytes,
the header bytes, and then the value-codec serialization of the metadata
with no compression applied, followed by the payload streams; the header
also records that metadata byte length. -/
theorem metadata_uncompressed_after_header (c : Container) (compress : Bool)
    (out : List Nat) (h : pixBlockEncoderRun c compress = .ok out) :
    ∃ infos pay,
      out = 1 :: (u32le (serializeHeader ⟨infos, c.ctorName,
          (serializeVal c._metadata).length⟩).length ++
        (serializeHeader ⟨infos, c.ctorName,
          (serializeVal c._metadata).length⟩ ++
        (serializeVal c._metadata ++ pay))) := by
  obtain ⟨nm, dt, md⟩ := c
  unfold pixBlockEncoderRun at h
  split at h
  · cases h
  · dsimp only at h
    exact encoderAssemble_shape nm md _ out h

/-- Witness for the metadata placement theorem at a concrete compressed
encoding. -/
theorem metadata_uncompressed_after_header_witness :
    ∃ infos pay,
      (encOk (pixBlockEncoderRun sampleContainer true)).getD []
        = 1 :: (u32le (serializeHeader ⟨infos, sampleContainer.ctorName,
            (serializeVal sampleContainer._metadata).length⟩).length ++
          (serializeHeader ⟨infos, sampleContainer.ctorName,
            (serializeVal sampleContainer._metadata).length⟩ ++
          (serializeVal sampleContainer._metadata ++ pay))) :=
  metadata_uncompressed_after_header sampleContainer true
    ((encOk (pixBlockEncoderRun sampleContainer true)).getD []) rfl

/-- C7: the index written by the archive encoder corresponds one to one with
the blocks it concatenates.  The encoding loop appends an index entry
exactly when it appends the block bytes, so the entry list and the block
list have equal length and, position by position, the entry records the
block byte length and the digest of the block bytes; and every archive the
encoder emits is the magic number, the endianness byte, the index length,
the serialized index holding exactly those entries, and the blocks in the
same order. -/
theorem bin_index_entries_match_blocks :
    (∀ (compress : Bool) (inputs : List Container)
        (entries : List PixBinIndexEntry) (blocks : List (List Nat)),
        pixBinEncoderLoop compress inputs = some (entries, blocks) →
        entries.map (fun e => e.byteLength) = blocks.map List.length ∧
        entries.map (fun e => e.checksum) = blocks.map md5 ∧
        entries.length = blocks.length) ∧
    (∀ (objs : List Container) (compress : Bool) (opts : PixBinOptions)
        (date : String) (out : List Nat),
        pixBinEncoderRun objs compress opts date = some out →
        ∃ entries blocks,
          pixBinEncoderLoop compress (pixBinEncoderAddInputs objs)
            = some (entries, blocks) ∧
          out = magicBytes ++ 1 :: u32le (serializeBinIndex
              ⟨date, opts.madeWith, opts.description, opts.userObject,
                entries⟩).length ++ serializeBinIndex
              ⟨date, opts.madeWith, opts.description, opts.userObject,
                entries⟩ ++ blocks.flatten) := by
  constructor
  · intro compress inputs
    induction inputs with
    | nil =>
        intro entries blocks h
        simp only [pixBinEncoderLoop] at h
        have h2 := Option.some.inj h
        injection h2 with he hb
        subst he
        subst hb
        exact ⟨rfl, rfl, rfl⟩
    | cons input rest ih =>
        intro entries blocks h
        rw [pixBinEncoderLoop] at h
        cases henc : pixBlockEncoderRun input compress with
        | crash => rw [henc] at h; cases h
        | noOutput => rw [henc] at h; exact ih entries blocks h
        | ok bts =>
            rw [henc] at h
            dsimp only at h
            cases hrest : pixBinEncoderLoop compress rest with
            | none => rw [hrest] at h; simp at h
            | some p =>
                obtain ⟨es, bs⟩ := p
                rw [hrest] at h
                simp at h
                obtain ⟨he, hb⟩ := h
                subst he
                subst hb
                obtain ⟨m1, m2, m3⟩ := ih es bs hrest
                exact ⟨by simp [m1], by simp [m2], by simp [m3]⟩
  · intro objs compress opts date out h
    unfold pixBinEncoderRun at h
    split at h
    · cases h
    · cases hloop : pixBinEncoderLoop compress (pixBinEncoderAddInputs objs) with
      | none => rw [hloop] at h; cases h
      | some p =>
          obtain ⟨entries, blocks⟩ := p
          rw [hloop] at h
          refine ⟨entries, blocks, rfl, ?_⟩
          have h2 := Option.some.inj h
          rw [← h2]
          simp [isPlatformLittleEndian]

/-- Witness for the index correspondence theorem at a concrete one-container
archive. -/
theorem bin_index_entries_match_blocks_witness :
    ([(⟨"Image2D", none, sampleUnit.length,
        md5 sampleUnit⟩ : PixBinIndexEntry)].map (fun e => e.byteLength)
      = [sampleUnit].map List.length ∧
     [(⟨"Image2D", none, sampleUnit.length,
        md5 sampleUnit⟩ : PixBinIndexEntry)].map (fun e => e.checksum)
      = [sampleUnit].map md5 ∧
     [(⟨"Image2D", none, sampleUnit.length,
        md5 sampleUnit⟩ : PixBinIndexEntry)].length = [sampleUnit].length) ∧
    ∃ entries blocks,
      pixBinEncoderLoop false (pixBinEncoderAddInputs [sampleContainer])
        = some (entries, blocks) ∧
      (pixBinEncoderRun [sampleContainer] false {}
          "2018-01-01T00:00:00.000Z").getD []
        = magicBytes ++ 1 :: u32le (serializeBinIndex
            ⟨"2018-01-01T00:00:00.000Z", PixBinOptions.madeWith {},
              PixBinOptions.description {}, PixBinOptions.userObject {},
              entries⟩).length ++ serializeBinIndex
            ⟨"2018-01-01T00:00:00.000Z", PixBinOptions.madeWith {},
              PixBinOptions.description {}, PixBinOptions.userObject {},
              entries⟩ ++ blocks.flatten :=
  ⟨bin_index_entries_match_blocks.1 false [sampleContainer]
      [⟨"Image2D", none, sampleUnit.length, md5 sampleUnit⟩] [sampleUnit] rfl,
   bin_index_entries_match_blocks.2 [sampleContainer] false {}
      "2018-01-01T00:00:00.000Z"
      ((pixBinEncoderRun [sampleContainer] false {}
        "2018-01-01T00:00:00.000Z").getD []) rfl⟩

/-- A successful stream loop yields one decoded value per header record. -/
theorem decodeStreamsLoop_length (input : List Nat) :
    ∀ (infos : List StreamInfo) (off : Option Nat) (vs : List DecodedValue),
    decodeStreamsLoop input off infos = some vs → vs.length = infos.length := by
  intro infos
  induction infos with
  | nil =>
      intro off vs h
      simp [decodeStreamsLoop] at h
      subst h
      rfl
  | cons bsi rest ih =>
      intro off vs h
      cases off with
      | none => simp [decodeStreamsLoop] at h
      | some o =>
          rw [decodeStreamsLoop] at h
          cases hd : decodeStreamAt input o bsi with
          | none => rw [hd] at h; simp at h
          | some pr =>
              obtain ⟨v, off2⟩ := pr
              rw [hd] at h
              dsimp only at h
              cases hrest : decodeStreamsLoop input off2 rest with
              | none => rw [hrest] at h; simp at h
              | some vs2 =>
                  rw [hrest] at h
                  simp at h
                  rw [← h]
                  simp [ih off2 vs2 hrest]

/-- C9: whenever the unit decoder succeeds, a header declaring exactly one
payload stream produces that stream decoded and unwrapped as a bare value,
and a header declaring any other number of streams produces the list of
decoded streams, one per header record in header order. -/
theorem single_stream_unwrapped (bs : List Nat) (out : DecodedBlock)
    (hl : Nat) (hhl : pixBlockDecoderHeaderLen bs = some hl)
    (hd : PixBlockHeader)
    (hh : deserializeHeader (sliceBytes bs 5 (5 + hl)) = some hd)
    (hrun : pixBlockDecoderRun bs = some out) :
    (hd.byteStreamInfo.length = 1 →
      ∃ v, decodeStreamsLoop bs (some (5 + hl + hd.metadataByteLength))
          hd.byteStreamInfo = some [v] ∧ out._data = .one v) ∧
    (hd.byteStreamInfo.length ≠ 1 →
      ∃ vs, decodeStreamsLoop bs (some (5 + hl + hd.metadataByteLength))
          hd.byteStreamInfo = some vs ∧
        vs.length = hd.byteStreamInfo.length ∧ out._data = .many vs) := by
  unfold pixBlockDecoderRun at hrun
  rw [hhl] at hrun
  dsimp only at hrun
  rw [hh] at hrun
  dsimp only at hrun
  cases hmeta : deserializeVal
      (sliceBytes bs (5 + hl) (5 + hl + hd.metadataByteLength)) with
  | none => rw [hmeta] at hrun; simp at hrun
  | some meta =>
      rw [hmeta] at hrun
      dsimp only at hrun
      cases hstr : decodeStreamsLoop bs (some (5 + hl + hd.metadataByteLength))
          hd.byteStreamInfo with
      | none => rw [hstr] at hrun; simp at hrun
      | some vs =>
          rw [hstr] at hrun
          simp at hrun
          have hlen := decodeStreamsLoop_length bs hd.byteStreamInfo _ vs hstr
          constructor
          · intro h1
            obtain ⟨v, hv⟩ : ∃ v, vs = [v] := by
              cases vs with
              | nil => rw [← hlen] at h1; simp at h1
              | cons v t =>
                  cases t with
                  | nil => exact ⟨v, rfl⟩
                  | cons w t2 => rw [← hlen] at h1; simp at h1
            subst hv
            refine ⟨v, rfl, ?_⟩
            rw [← hrun]
          · intro h1
            refine ⟨vs, rfl, by omega, ?_⟩
            rw [← hrun]
            cases vs with
            | nil => rfl
            | cons v t =>
                cases t with
                | nil =>
                    exfalso
                    apply h1
                    rw [← hlen]
                    rfl
                | cons w t2 => rfl

/-- Witness for the unwrap theorem at a one-stream unit and a two-stream
unit. -/
theorem single_stream_unwrapped_witness :
    (∃ v, decodeStreamsLoop sampleUnit
        (some (5 + sampleHeaderLen + sampleHeader.metadataByteLength))
        sampleHeader.byteStreamInfo = some [v] ∧
      sampleDecoded._data = .one v) ∧
    (∃ vs, decodeStreamsLoop mixedUnit
        (some (5 + mixedHeaderLen + mixedHeader.metadataByteLength))
        mixedHeader.byteStreamInfo = some vs ∧
      vs.length = mixedHeader.byteStreamInfo.length ∧
      mixedDecoded._data = .many vs) :=
  ⟨(single_stream_unwrapped sampleUnit sampleDecoded sampleHeaderLen rfl
      sampleHeader rfl rfl).1 (by decide),
   (single_stream_unwrapped mixedUnit mixedDecoded mixedHeaderLen rfl
      mixedHeader rfl rfl).2 (by decide)⟩

/-- Reading past a known front of an appended buffer reads the rest. -/
theorem getD_append_right (front rest : List Nat) (k : Nat) :
    (front ++ rest).getD (front.length + k) 0 = rest.getD k 0 := by
  simp [List.getD, List.getElem?_append_right]

/-- A little-endian 32-bit read at the position where a u32le field was
written recovers the written value. -/
theorem readU32LE_u32le (front rest : List Nat) (n : Nat)
    (h : n < 4294967296) :
    readU32LE (front ++ (u32le n ++ rest)) front.length = n := by
  unfold readU32LE
  have k0 : (front ++ (u32le n ++ rest)).getD front.length 0
      = (u32le n ++ rest).getD 0 0 := by
    simpa using getD_append_right front (u32le n ++ rest) 0
  have k1 := getD_append_right front (u32le n ++ rest) 1
  have k2 := getD_append_right front (u32le n ++ rest) 2
  have k3 := getD_append_right front (u32le n ++ rest) 3
  rw [k0, k1, k2, k3]
  simp only [u32le, List.cons_append, List.getD_cons_zero, List.getD_cons_succ]
  omega

/-- Parsing an archive whose primer declares little endianness and whose
length field carries the index byte length reduces the eager bin decoder to
its block loop over the parsed index. -/
theorem pixBinDecoderRun_archive (idxBytes tailB : List Nat)
    (idx : PixBinIndex) (v : Bool)
    (hidx : deserializeBinIndex idxBytes = some idx)
    (hlen : idxBytes.length < 4294967296) :
    pixBinDecoderRun
      (magicBytes ++ 1 :: (u32le idxBytes.length ++ (idxBytes ++ tailB))) v
      = match binDecodeLoop
          (magicBytes ++ 1 :: (u32le idxBytes.length ++ (idxBytes ++ tailB)))
          v (magicBytes.length + 5 + idxBytes.length) idx.pixblocksInfo with
        | none => BinRunResult.crash
        | some blocks => BinRunResult.ok idx blocks := by
  have hsplit1 : magicBytes ++ 1 :: (u32le idxBytes.length ++ (idxBytes ++ tailB))
      = (magicBytes ++ [1]) ++ (u32le idxBytes.length ++ (idxBytes ++ tailB)) := by
    simp
  have hsplit2 : magicBytes ++ 1 :: (u32le idxBytes.length ++ (idxBytes ++ tailB))
      = (magicBytes ++ 1 :: u32le idxBytes.length) ++ (idxBytes ++ tailB) := by
    simp
  have hendian : (magicBytes ++
      1 :: (u32le idxBytes.length ++ (idxBytes ++ tailB))).getD
        magicBytes.length 0 = 1 := by
    simpa using getD_append_right magicBytes
      (1 :: (u32le idxBytes.length ++ (idxBytes ++ tailB))) 0
  have hread : readU32 (magicBytes ++
      1 :: (u32le idxBytes.length ++ (idxBytes ++ tailB)))
        (magicBytes.length + 1) true = idxBytes.length := by
    unfold readU32
    rw [if_pos rfl, hsplit1,
      show magicBytes.length + 1 = (magicBytes ++ [1]).length by simp]
    exact readU32LE_u32le (magicBytes ++ [1]) (idxBytes ++ tailB)
      idxBytes.length hlen
  have hslice : sliceBytes (magicBytes ++
      1 :: (u32le idxBytes.length ++ (idxBytes ++ tailB)))
        (magicBytes.length + 5) (magicBytes.length + 5 + idxBytes.length)
      = idxBytes := by
    rw [hsplit2,
      show magicBytes.length + 5
        = (magicBytes ++ 1 :: u32le idxBytes.length).length by simp [u32le]]
    rw [sliceBytes_append]
    exact List.take_left idxBytes tailB
  unfold pixBinDecoderRun
  rw [if_neg (by simp [u32le, magicBytes])]
  rw [if_neg (by rw [show List.take magicBytes.length (magicBytes ++
      1 :: (u32le idxBytes.length ++ (idxBytes ++ tailB))) = magicBytes
    from List.take_left magicBytes _]; simp)]
  rw [hendian]
  rw [if_neg (by simp)]
  unfold pixBinDecoderBody
  rw [show (decide ((1 : Nat) = 1)) = true from rfl, hread, hslice, hidx]

/-- A run of index entries whose units have matching lengths and checksums
and decode successfully contributes exactly its decoded blocks, in order,
before whatever the loop produces for the remaining entries. -/
theorem binDecodeLoop_append_ok (v : Bool) :
    ∀ (es : List PixBinIndexEntry) (us : List (List Nat))
      (ds : List DecodedBlock) (front tailB : List Nat)
      (es2 : List PixBinIndexEntry),
      es.map (fun e => e.byteLength) = us.map List.length →
      (∀ pr ∈ es.zip us, pr.1.checksum = md5 pr.2) →
      us.map pixBlockDecoderRun = ds.map some →
      binDecodeLoop (front ++ (us.flatten ++ tailB)) v front.length (es ++ es2)
        = (binDecodeLoop (front ++ (us.flatten ++ tailB)) v
            (front.length + us.flatten.length) es2).map (fun l => ds ++ l)
  | [], us, ds, front, tailB, es2, hlen, hck, hdec => by
      have hus : us = [] := by
        cases us with
        | nil => rfl
        | cons a t => simp at hlen
      subst hus
      have hds : ds = [] := by
        cases ds with
        | nil => rfl
        | cons a t => simp at hdec
      subst hds
      simp
  | e :: es, us, ds, front, tailB, es2, hlen, hck, hdec => by
      cases us with
      | nil => simp at hlen
      | cons u us2 =>
          cases ds with
          | nil => simp at hdec
          | cons d ds2 =>
              simp only [List.map_cons, List.cons.injEq] at hlen hdec
              obtain ⟨hbl, hlen2⟩ := hlen
              obtain ⟨hd1, hdec2⟩ := hdec
              have hckh : e.checksum = md5 u := by
                refine hck (e, u) ?_
                simp
              have hck2 : ∀ pr ∈ es.zip us2, pr.1.checksum = md5 pr.2 := by
                intro pr hpr
                refine hck pr ?_
                simp [hpr]
              have hbuf : front ++ ((u :: us2).flatten ++ tailB)
                  = (front ++ u) ++ (us2.flatten ++ tailB) := by
                simp
              have hslice : sliceBytes (front ++ ((u :: us2).flatten ++ tailB))
                  front.length (front.length + e.byteLength) = u := by
                rw [hbl, show (u :: us2).flatten ++ tailB
                    = u ++ (us2.flatten ++ tailB) by simp]
                rw [sliceBytes_append front (u ++ (us2.flatten ++ tailB))
                  u.length]
                exact List.take_left u (us2.flatten ++ tailB)
              have IH := binDecodeLoop_append_ok v es us2 ds2 (front ++ u)
                tailB es2 hlen2 hck2 hdec2
              rw [← hbuf] at IH
              rw [show (e :: es) ++ es2 = e :: (es ++ es2) from rfl]
              rw [binDecodeLoop, hslice]
              rw [if_neg (fun hcon => hcon.2 hckh.symm)]
              rw [hd1]
              rw [show front.length + e.byteLength = (front ++ u).length by
                rw [hbl]; simp]
              rw [IH]
              rw [show front.length + (u :: us2).flatten.length
                  = (front ++ u).length + us2.flatten.length by simp; omega]
              cases binDecodeLoop (front ++ ((u :: us2).flatten ++ tailB)) v
                  ((front ++ u).length + us2.flatten.length) es2 with
              | none => simp
              | some l => simp

/-- C10: with verification enabled, when one unit of an otherwise
well-formed archive fails its checksum, the eager archive decoder returns
the full parsed index together with the decoded blocks of all the other
units, in index order, with no placeholder for the failed unit — the output
list is one shorter than the index. -/
theorem bin_run_drops_failed_block
    (idxBytes : List Nat) (idx : PixBinIndex)
    (es1 es2 : List PixBinIndexEntry) (eb : PixBinIndexEntry)
    (us1 us2 : List (List Nat)) (ub : List Nat)
    (ds1 ds2 : List DecodedBlock)
    (hidx : deserializeBinIndex idxBytes = some idx)
    (hlen32 : idxBytes.length < 4294967296)
    (hes : idx.pixblocksInfo = es1 ++ eb :: es2)
    (hl1 : es1.map (fun e => e.byteLength) = us1.map List.length)
    (hl2 : es2.map (fun e => e.byteLength) = us2.map List.length)
    (hlb : eb.byteLength = ub.length)
    (hck1 : ∀ pr ∈ es1.zip us1, pr.1.checksum = md5 pr.2)
    (hck2 : ∀ pr ∈ es2.zip us2, pr.1.checksum = md5 pr.2)
    (hckb : md5 ub ≠ eb.checksum)
    (hd1 : us1.map pixBlockDecoderRun = ds1.map some)
    (hd2 : us2.map pixBlockDecoderRun = ds2.map some) :
    pixBinDecoderRun (magicBytes ++ 1 :: (u32le idxBytes.length ++
        (idxBytes ++ (us1 ++ ub :: us2).flatten))) true
      = .ok idx (ds1 ++ ds2) ∧
    (ds1 ++ ds2).length + 1 = idx.pixblocksInfo.length := by
  have harch := pixBinDecoderRun_archive idxBytes
    ((us1 ++ ub :: us2).flatten) idx true hidx hlen32
  have hP : magicBytes ++ 1 :: (u32le idxBytes.length ++
        (idxBytes ++ (us1 ++ ub :: us2).flatten))
      = ((magicBytes ++ 1 :: u32le idxBytes.length) ++ idxBytes) ++
        (us1.flatten ++ (ub :: us2).flatten) := by
    simp [List.flatten_append]
  have hPlen : (((magicBytes ++ 1 :: u32le idxBytes.length) ++
      idxBytes)).length = magicBytes.length + 5 + idxBytes.length := by
    simp [u32le]
    omega
  have step1 := binDecodeLoop_append_ok true es1 us1 ds1
    ((magicBytes ++ 1 :: u32le idxBytes.length) ++ idxBytes)
    ((ub :: us2).flatten) (eb :: es2) hl1 hck1 hd1
  rw [← hP] at step1
  have hQ : magicBytes ++ 1 :: (u32le idxBytes.length ++
        (idxBytes ++ (us1 ++ ub :: us2).flatten))
      = (((magicBytes ++ 1 :: u32le idxBytes.length) ++ idxBytes) ++
          us1.flatten) ++ (ub ++ us2.flatten) := by
    simp [List.flatten_append]
  have hsliceb : sliceBytes (magicBytes ++ 1 :: (u32le idxBytes.length ++
        (idxBytes ++ (us1 ++ ub :: us2).flatten)))
      ((((magicBytes ++ 1 :: u32le idxBytes.length) ++ idxBytes)).length +
        us1.flatten.length)
      (((((magicBytes ++ 1 :: u32le idxBytes.length) ++ idxBytes)).length +
        us1.flatten.length) + eb.byteLength) = ub := by
    rw [hlb, hQ,
      show (((magicBytes ++ 1 :: u32le idxBytes.length) ++ idxBytes)).length +
          us1.flatten.length
        = ((((magicBytes ++ 1 :: u32le idxBytes.length) ++ idxBytes) ++
            us1.flatten)).length by simp; omega]
    rw [sliceBytes_append]
    exact List.take_left ub us2.flatten
  have step2 : binDecodeLoop (magicBytes ++ 1 :: (u32le idxBytes.length ++
        (idxBytes ++ (us1 ++ ub :: us2).flatten))) true
      ((((magicBytes ++ 1 :: u32le idxBytes.length) ++ idxBytes)).length +
        us1.flatten.length) (eb :: es2)
      = binDecodeLoop (magicBytes ++ 1 :: (u32le idxBytes.length ++
          (idxBytes ++ (us1 ++ ub :: us2).flatten))) true
        (((((magicBytes ++ 1 :: u32le idxBytes.length) ++ idxBytes)).length +
          us1.flatten.length) + eb.byteLength) es2 := by
    rw [binDecodeLoop, hsliceb, if_pos ⟨rfl, hckb⟩]
  have hR : magicBytes ++ 1 :: (u32le idxBytes.length ++
        (idxBytes ++ (us1 ++ ub :: us2).flatten))
      = ((((magicBytes ++ 1 :: u32le idxBytes.length) ++ idxBytes) ++
          us1.flatten) ++ ub) ++ (us2.flatten ++ []) := by
    simp [List.flatten_append]
  have step3 := binDecodeLoop_append_ok true es2 us2 ds2
    ((((magicBytes ++ 1 :: u32le idxBytes.length) ++ idxBytes) ++
      us1.flatten) ++ ub) [] [] hl2 hck2 hd2
  rw [← hR] at step3
  simp only [List.append_nil] at step3
  have hloop : binDecodeLoop (magicBytes ++ 1 :: (u32le idxBytes.length ++
        (idxBytes ++ (us1 ++ ub :: us2).flatten))) true
      (magicBytes.length + 5 + idxBytes.length) idx.pixblocksInfo
      = some (ds1 ++ ds2) := by
    rw [hes, ← hPlen, step1, step2,
      show ((((magicBytes ++ 1 :: u32le idxBytes.length) ++ idxBytes)).length +
          us1.flatten.length) + eb.byteLength
        = (((((magicBytes ++ 1 :: u32le idxBytes.length) ++ idxBytes) ++
            us1.flatten) ++ ub)).length by rw [hlb]; simp; omega]
    rw [step3]
    rw [show binDecodeLoop (magicBytes ++ 1 :: (u32le idxBytes.length ++
          (idxBytes ++ (us1 ++ ub :: us2).flatten))) true
        ((((((magicBytes ++ 1 :: u32le idxBytes.length) ++ idxBytes) ++
          us1.flatten) ++ ub)).length + us2.flatten.length) []
      = some [] from rfl]
    simp
  have len1 : ds1.length = es1.length := by
    have a := congrArg List.length hd1
    have b := congrArg List.length hl1
    simp at a b
    omega
  have len2 : ds2.length = es2.length := by
    have a := congrArg List.length hd2
    have b := congrArg List.length hl2
    simp at a b
    omega
  constructor
  · rw [harch, hloop]
  · rw [hes]
    simp [len1, len2]
    omega

set_option maxRecDepth 100000 in
/-- Witness for the dropped-block theorem at a concrete two-unit archive
with the first byte of unit 1 flipped to 255. -/
theorem bin_run_drops_failed_block_witness :
    pixBinDecoderRun (magicBytes ++
        1 :: (u32le (serializeBinIndex sampleBinIndex).length ++
          (serializeBinIndex sampleBinIndex ++
            ([sampleUnit] ++ (mixedUnit.set 0 255) :: []).flatten))) true
      = .ok sampleBinIndex ([sampleDecoded] ++ []) ∧
    (([sampleDecoded] ++ []) : List DecodedBlock).length + 1
      = sampleBinIndex.pixblocksInfo.length :=
  bin_run_drops_failed_block (serializeBinIndex sampleBinIndex)
    sampleBinIndex
    [⟨"Image2D", none, sampleUnit.length, md5 sampleUnit⟩] []
    ⟨"Mesh", none, mixedUnit.length, md5 mixedUnit⟩
    [sampleUnit] [] (mixedUnit.set 0 255)
    [sampleDecoded] []
    rfl (by decide) rfl rfl rfl rfl (by decide) (by decide) (by decide)
    rfl rfl

end PixBin
